import Mathlib

set_option maxHeartbeats 1000000
set_option autoImplicit false

/-
Shallow embedding of the validity-classification core of the
employee_reporter repository:

  - src/reporter/utils.py          (the Gate convert_bijoy_value, the header
                                    conversion convert_col_name, the pipeline
                                    load_and_process_excel, the column-role
                                    resolver detect_id_name_cols)
  - src/converting_files/main.py   (the Gate convert_bijoy_in_value and the
                                    table map apply_to_df)
  - src/converting_files/conv_driver.py (the older Gate copy)

Python strings are modelled as lists of characters (Str).  The external
converter unicodeconverter.convert_bijoy_to_unicode is an opaque parameter
of type Str to Option Str; none models a raised exception.  The Python
character predicates str.isalpha, str.strip and str.lower are modelled over
the character repertoire this pipeline distinguishes (ASCII plus the Bengali
block U+0980..U+09FF): pyIsAlpha covers the ASCII letters and the Bengali
letters of general category Lo, pyIsSpace the ASCII whitespace characters,
and pyLower the ASCII case map (Bengali has no case).  The pandas-level
date-column formatting of load_and_process_excel is outside the model; the
NaN-to-empty-string replacement is modelled by replace_nan.
-/

abbrev Str := List Char

/-- Model of the external converter; none models a raised exception. -/
abbrev Converter := Str → Option Str

/-- Character list of a string literal. -/
abbrev strL (s : String) : Str := s.toList

/-- Membership in the Bengali Unicode block U+0980..U+09FF (source: has_bengali). -/
def isBengali (c : Char) : Bool := 0x0980 ≤ c.toNat && c.toNat ≤ 0x09FF

/-- Membership in the dependent-vowel-sign range U+09BE..U+09CC (source: has_vowel_sign). -/
def isVowelSign (c : Char) : Bool := 0x09BE ≤ c.toNat && c.toNat ≤ 0x09CC

/-- Khanda Ta, U+09CE. -/
def khandaTa : Char := 'ৎ'

def hasBengali (t : Str) : Bool := t.any isBengali

def hasVowelSign (t : Str) : Bool := t.any isVowelSign

/-- Source reporter/utils.py has_invalid_khanda_ta: Khanda Ta immediately
followed by another Bengali-block character. -/
def hasInvalidKhandaTa : Str → Bool
  | c :: d :: rest => (c = khandaTa && isBengali d) || hasInvalidKhandaTa (d :: rest)
  | _ => false

/-- Python whitespace for str.strip and str.isspace (ASCII part). -/
def pyIsSpace (c : Char) : Bool := c.toNat = 32 || (9 ≤ c.toNat && c.toNat ≤ 13)

/-- Python str.isalpha restricted to ASCII letters plus the Bengali letters
of Unicode general category Lo. -/
def pyIsAlpha (c : Char) : Bool :=
  (65 ≤ c.toNat && c.toNat ≤ 90) || (97 ≤ c.toNat && c.toNat ≤ 122) ||
  (0x0985 ≤ c.toNat && c.toNat ≤ 0x098C) || (0x098F ≤ c.toNat && c.toNat ≤ 0x0990) ||
  (0x0993 ≤ c.toNat && c.toNat ≤ 0x09A8) || (0x09AA ≤ c.toNat && c.toNat ≤ 0x09B0) ||
  c.toNat = 0x09B2 || (0x09B6 ≤ c.toNat && c.toNat ≤ 0x09B9) ||
  c.toNat = 0x09BD || c.toNat = 0x09CE ||
  (0x09DC ≤ c.toNat && c.toNat ≤ 0x09DD) || (0x09DF ≤ c.toNat && c.toNat ≤ 0x09E1) ||
  (0x09F0 ≤ c.toNat && c.toNat ≤ 0x09F1)

def lstrip (t : Str) : Str := t.dropWhile pyIsSpace

def rstrip (t : Str) : Str := (t.reverse.dropWhile pyIsSpace).reverse

/-- Python str.strip (no arguments). -/
def strip (t : Str) : Str := rstrip (lstrip t)

/-- The character map of the Python expression replacing a newline by a space. -/
def nl2sp (c : Char) : Char := if c = '\n' then ' ' else c

/-- The cleanup raw.replace of newline by space, then strip, used on column names. -/
def cleanStr (t : Str) : Str := strip (t.map nl2sp)

/-- Python str.lower (ASCII case map; Bengali has no case). -/
def pyLower (t : Str) : Str := t.map Char.toLower

/-- The first list is a leading segment of the second (Python str.startswith). -/
def listStartsWith : Str → Str → Bool
  | [], _ => true
  | _ :: _, [] => false
  | p :: ps, c :: cs => p = c && listStartsWith ps cs

/-- Python substring containment, pat occurring inside hay. -/
def containsSub (hay pat : Str) : Bool :=
  match hay with
  | [] => listStartsWith pat []
  | c :: rest => listStartsWith pat (c :: rest) || containsSub rest pat

/-- A spreadsheet cell value: a string, the missing-value sentinel NaN, or
some other non-string scalar. -/
inductive CellValue where
  | vstr : Str → CellValue
  | vnan : CellValue
  | vother : Int → CellValue
deriving DecidableEq

/-- Source reporter/utils.py convert_bijoy_value (the Gate). -/
def convert_bijoy_value (conv : Converter) : CellValue → CellValue
  | CellValue.vstr s =>
    let text := strip s
    if text = [] then CellValue.vstr s
    else if hasBengali text then CellValue.vstr s
    else if !(text.any pyIsAlpha) then CellValue.vstr s
    else
      match conv text with
      | none => CellValue.vstr s
      | some converted =>
        if hasVowelSign converted && !(hasInvalidKhandaTa converted) then
          CellValue.vstr converted
        else CellValue.vstr s
  | v => v

/-- Source converting_files/main.py convert_bijoy_in_value: same accept rule,
but no alphabetic-character check, and the converter is invoked on the
unstripped value. -/
def main_convert_bijoy_in_value (conv : Converter) : CellValue → CellValue
  | CellValue.vstr s =>
    if strip s = [] then CellValue.vstr s
    else if hasBengali s then CellValue.vstr s
    else
      match conv s with
      | none => CellValue.vstr s
      | some converted =>
        if hasVowelSign converted && !(hasInvalidKhandaTa converted) then
          CellValue.vstr converted
        else CellValue.vstr s
  | v => v

/-- The string-level restriction of main_convert_bijoy_in_value, used for the
column headers and index labels in apply_to_df. -/
def main_convert_bijoy_str (conv : Converter) (s : Str) : Str :=
  if strip s = [] then s
  else if hasBengali s then s
  else
    match conv s with
    | none => s
    | some converted =>
      if hasVowelSign converted && !(hasInvalidKhandaTa converted) then converted
      else s

/-- Source converting_files/conv_driver.py looks_like_bijoy. -/
def looks_like_bijoy (t : Str) : Bool :=
  if t = [] || t.all pyIsSpace then false
  else if t.any isBengali then false
  else t.any pyIsAlpha

/-- Source converting_files/conv_driver.py convert_bijoy_in_value: converts
whenever the text looks like Bijoy and keeps the converter output with no
accept/discard check at all. -/
def driver_convert_bijoy_in_value (conv : Converter) : CellValue → CellValue
  | CellValue.vstr s =>
    if strip s = [] then CellValue.vstr s
    else if looks_like_bijoy s then
      match conv s with
      | some converted => CellValue.vstr converted
      | none => CellValue.vstr s
    else CellValue.vstr s
  | v => v

def unnamedTag : Str := strL "Unnamed:"

/-- The branch of convert_col_name on the cleaned column name. -/
def colConvert (conv : Converter) (clean : Str) : Str :=
  if hasBengali clean then clean
  else if !(clean.any pyIsAlpha) then clean
  else
    match conv clean with
    | none => clean
    | some converted =>
      if hasVowelSign converted && !(hasInvalidKhandaTa converted) then cleanStr converted
      else clean

/-- Source reporter/utils.py convert_col_name. -/
def convert_col_name (conv : Converter) (raw : Str) : Str :=
  if listStartsWith unnamedTag raw then raw
  else colConvert conv (cleanStr raw)

/-- Decimal digit character. -/
def digitChar (d : Nat) : Char := Char.ofNat (48 + d)

/-- Fuel-driven decimal digit expansion, most significant digit first. -/
def natDigitsAux : Nat → Nat → Str
  | 0, _ => []
  | fuel + 1, n => if n = 0 then [] else natDigitsAux fuel (n / 10) ++ [digitChar (n % 10)]

/-- Decimal representation of a natural number (empty for zero, which the
dedup suffix never uses). -/
def natDigits (n : Nat) : Str := natDigitsAux (n + 1) n

/-- The dedup suffix, an underscore followed by the decimal collision count. -/
def sfx (n : Nat) : Str := '_' :: natDigits n

/-- The seen dictionary of load_and_process_excel, as an association list. -/
def lookupSeen : List (Str × Nat) → Str → Option Nat
  | [], _ => none
  | (k, v) :: rest, n => if k = n then some v else lookupSeen rest n

def bumpSeen : List (Str × Nat) → Str → List (Str × Nat)
  | [], _ => []
  | (k, v) :: rest, n => if k = n then (k, v + 1) :: rest else (k, v) :: bumpSeen rest n

/-- The header dedup loop of load_and_process_excel: converted names are the
dictionary keys; a suffixed name is emitted but never added as a key. -/
def dedupNames (seen : List (Str × Nat)) : List Str → List Str
  | [] => []
  | c :: rest =>
    match lookupSeen seen c with
    | some v => (c ++ sfx (v + 1)) :: dedupNames (bumpSeen seen c) rest
    | none => c :: dedupNames ((c, 0) :: seen) rest

/-- Occurrence count of a name in a list of names. -/
def countStr (x : Str) : List Str → Nat
  | [] => 0
  | y :: rest => (if y = x then 1 else 0) + countStr x rest

/-- Modelled from the spec wording of header dedup, for comparison with
dedupNames: walking left to right, a name that occurred k times among the
earlier converted names is emitted with suffix k (unsuffixed when k = 0). -/
def dedupSpec (past : List Str) : List Str → List Str
  | [] => []
  | c :: rest =>
    (if countStr c past = 0 then c else c ++ sfx (countStr c past)) :: dedupSpec (past ++ [c]) rest

/-- A table: header labels, row-major cells, row-index labels. -/
structure Table where
  headers : List Str
  rows : List (List CellValue)
  index : List CellValue
deriving DecidableEq

/-- The NaN-to-empty-string replacement df.where of load_and_process_excel. -/
def replace_nan (v : CellValue) : CellValue :=
  if v = CellValue.vnan then CellValue.vstr [] else v

/-- Source reporter/utils.py load_and_process_excel, restricted to the
conversion pipeline: header conversion and dedup, cell conversion, NaN
replacement.  The row index is not touched. -/
def load_and_process_excel (conv : Converter) (t : Table) : Table :=
  { headers := dedupNames [] (t.headers.map (convert_col_name conv)),
    rows := t.rows.map (fun r => (r.map (convert_bijoy_value conv)).map replace_nan),
    index := t.index }

/-- Source converting_files/main.py apply_to_df: the one Gate applied to all
cells, all headers and all index labels. -/
def apply_to_df (conv : Converter) (t : Table) : Table :=
  { headers := t.headers.map (main_convert_bijoy_str conv),
    rows := t.rows.map (fun r => r.map (main_convert_bijoy_in_value conv)),
    index := t.index.map (main_convert_bijoy_in_value conv) }

def ID_EXACT : List Str := [strL "id"]

def ID_KEYWORDS : List Str :=
  [strL "পার্সোনেল", strL "personnel", strL "emp_id", strL "employee_id"]

def NAME_EXACT : List Str := [strL "নাম", strL "name_bn", strL "name"]

def NAME_KEYWORDS : List Str := [strL "নাম", strL "name"]

/-- Python list.index: position of the first occurrence. -/
def idxOfStr (l : List Str) (x : Str) : Nat := l.findIdx (fun c => c = x)

/-- The exact-match loop: the first exact name that is a member wins, at the
position of its first occurrence. -/
def findExact (lower : List Str) : List Str → Option Nat
  | [] => none
  | e :: rest => if e ∈ lower then some (idxOfStr lower e) else findExact lower rest

def idKwPred (c : Str) : Bool := ID_KEYWORDS.any (fun kw => containsSub c kw)

def nameKwPred (c : Str) : Bool := NAME_KEYWORDS.any (fun kw => containsSub c kw)

/-- The lower-cased stripped headers the resolver compares against. -/
def lowerCols (cols : List Str) : List Str := cols.map (fun c => strip (pyLower c))

/-- The identifier-column search of detect_id_name_cols: exact match, then
keyword substring, then positional fallback min 3 (length - 1). -/
def detectIdIdx (cols : List Str) : Int :=
  match findExact (lowerCols cols) ID_EXACT with
  | some i => (i : Int)
  | none =>
    if (lowerCols cols).any idKwPred then ((lowerCols cols).findIdx idKwPred : Int)
    else min 3 ((cols.length : Int) - 1)

/-- The name-column search of detect_id_name_cols before the collision fix-up. -/
def detectNameIdxRaw (cols : List Str) : Int :=
  match findExact (lowerCols cols) NAME_EXACT with
  | some i => (i : Int)
  | none =>
    if (lowerCols cols).any nameKwPred then ((lowerCols cols).findIdx nameKwPred : Int)
    else min 5 ((cols.length : Int) - 1)

/-- Source reporter/utils.py detect_id_name_cols.  Indices are integers so
that the Python expression min 3 (length - 1) keeps its value -1 on an empty
header list. -/
def detect_id_name_cols (cols : List Str) : Int × Int :=
  let idIdx := detectIdIdx cols
  let nameIdx0 := detectNameIdxRaw cols
  let nameIdx :=
    if nameIdx0 = idIdx then
      if idIdx + 1 < (cols.length : Int) then idIdx + 1 else idIdx
    else nameIdx0
  (idIdx, nameIdx)

/-- A converter that always raises. -/
def convNone : Converter := fun _ => none

/-- A valid Bengali syllable with a dependent vowel sign. -/
def baStr : Str := ['ব', 'া']

/-- A converter accepting exactly the already-suffixed header Name_1. -/
def convAcceptName1 : Converter := fun s => if s = strL "Name_1" then some baStr else none

/-- A converter succeeding exactly on the stripped cell text ab. -/
def convAb : Converter := fun s => if s = strL "ab" then some baStr else none

/-- A converter returning consonant-only output with no vowel sign. -/
def convZ : Converter := fun _ => some ['Z']

/-- A converter returning a valid vowel-sign word on every input. -/
def convBa : Converter := fun _ => some baStr

/- Concrete tables used in witnesses and counterexamples. -/

def tblNN : Table := { headers := [strL "Name", strL "Name"], rows := [], index := [] }

def tblNNN1 : Table :=
  { headers := [strL "Name", strL "Name", strL "Name_1"], rows := [], index := [] }

def tblAAA1 : Table :=
  { headers := [strL "a", strL "a", strL "a_1"], rows := [], index := [] }

def tblAB : Table :=
  { headers := [strL "a", strL "b"], rows := [[CellValue.vstr (strL "Hello")]],
    index := [CellValue.vstr (strL "i")] }

def tblIdx : Table :=
  { headers := [strL "h"], rows := [[CellValue.vstr (strL "ab")]],
    index := [CellValue.vstr (strL "ab")] }

/- Character-class facts. -/

lemma pyIsSpace_eq_false_of_pyIsAlpha {c : Char} (h : pyIsAlpha c = true) :
    pyIsSpace c = false := by
  cases hv : pyIsSpace c
  · rfl
  · exfalso
    simp only [pyIsAlpha, Bool.or_eq_true, Bool.and_eq_true, decide_eq_true_eq] at h
    simp only [pyIsSpace, Bool.or_eq_true, Bool.and_eq_true, decide_eq_true_eq] at hv
    omega

lemma pyIsSpace_eq_false_of_isBengali {c : Char} (h : isBengali c = true) :
    pyIsSpace c = false := by
  cases hv : pyIsSpace c
  · rfl
  · exfalso
    simp only [isBengali, Bool.and_eq_true, decide_eq_true_eq] at h
    simp only [pyIsSpace, Bool.or_eq_true, Bool.and_eq_true, decide_eq_true_eq] at hv
    omega

lemma isBengali_of_isVowelSign {c : Char} (h : isVowelSign c = true) :
    isBengali c = true := by
  simp only [isVowelSign, Bool.and_eq_true, decide_eq_true_eq] at h
  simp only [isBengali, Bool.and_eq_true, decide_eq_true_eq]
  omega

lemma ne_newline_of_isVowelSign {c : Char} (h : isVowelSign c = true) : c ≠ '\n' := by
  intro he
  subst he
  exact absurd h (by decide)

/- Strip and clean infrastructure. -/

lemma mem_dropWhile_of_mem {p : Char → Bool} {x : Char} :
    ∀ {l : Str}, x ∈ l → p x = false → x ∈ l.dropWhile p := by
  intro l
  induction l with
  | nil => intro h _; cases h
  | cons a t ih =>
    intro hx hpx
    by_cases hpa : p a = true
    · rw [List.dropWhile_cons, if_pos hpa]
      rcases List.mem_cons.mp hx with he | ht
      · subst he; rw [hpx] at hpa; cases hpa
      · exact ih ht hpx
    · rw [List.dropWhile_cons, if_neg hpa]
      exact hx

lemma mem_of_mem_dropWhile {p : Char → Bool} {x : Char} {l : Str}
    (h : x ∈ l.dropWhile p) : x ∈ l :=
  (List.dropWhile_sublist p).mem h

lemma mem_strip_of_mem {x : Char} {l : Str} (hx : x ∈ l) (hpx : pyIsSpace x = false) :
    x ∈ strip l := by
  have h1 : x ∈ lstrip l := mem_dropWhile_of_mem hx hpx
  have h2 : x ∈ (lstrip l).reverse := List.mem_reverse.mpr h1
  have h3 : x ∈ (lstrip l).reverse.dropWhile pyIsSpace := mem_dropWhile_of_mem h2 hpx
  exact List.mem_reverse.mpr h3

lemma mem_of_mem_strip {x : Char} {l : Str} (hx : x ∈ strip l) : x ∈ l := by
  have h1 : x ∈ (lstrip l).reverse.dropWhile pyIsSpace := List.mem_reverse.mp hx
  have h2 : x ∈ (lstrip l).reverse := mem_of_mem_dropWhile h1
  exact mem_of_mem_dropWhile (List.mem_reverse.mp h2)

lemma strip_ne_nil_of_mem {x : Char} {l : Str} (hx : x ∈ l) (hpx : pyIsSpace x = false) :
    strip l ≠ [] :=
  List.ne_nil_of_mem (mem_strip_of_mem hx hpx)

lemma lstrip_idem (l : Str) : lstrip (lstrip l) = lstrip l :=
  List.dropWhile_idempotent pyIsSpace l

lemma rstrip_idem (l : Str) : rstrip (rstrip l) = rstrip l := by
  unfold rstrip
  rw [List.reverse_reverse, List.dropWhile_idempotent]

lemma head_not_space_of_lstrip_eq_self {a : Char} {t : Str}
    (h : List.dropWhile pyIsSpace (a :: t) = a :: t) : pyIsSpace a = false := by
  by_contra hne
  have hpa : pyIsSpace a = true := by
    cases hv : pyIsSpace a
    · exact absurd hv hne
    · rfl
  rw [List.dropWhile_cons, if_pos hpa] at h
  have hlen : (List.dropWhile pyIsSpace t).length ≤ t.length :=
    (List.dropWhile_sublist pyIsSpace).length_le
  rw [h] at hlen
  simp at hlen

lemma rstrip_append_takeWhile (w : Str) :
    rstrip w ++ (List.takeWhile pyIsSpace w.reverse).reverse = w := by
  unfold rstrip
  rw [← List.reverse_append, List.takeWhile_append_dropWhile, List.reverse_reverse]

lemma lstrip_rstrip_of_lstrip_eq_self {w : Str} (h : lstrip w = w) :
    lstrip (rstrip w) = rstrip w := by
  cases hr : rstrip w with
  | nil => rfl
  | cons a u =>
    have hw := rstrip_append_takeWhile w
    rw [hr] at hw
    obtain ⟨tl, hw2⟩ : ∃ tl, (a :: u) ++ tl = w := ⟨_, hw⟩
    have hform : w = a :: (u ++ tl) := by rw [← hw2]; rfl
    have hds : List.dropWhile pyIsSpace (a :: (u ++ tl)) = a :: (u ++ tl) := by
      rw [← hform]
      exact h
    have hpa : pyIsSpace a = false := head_not_space_of_lstrip_eq_self hds
    unfold lstrip
    rw [List.dropWhile_cons, if_neg (by simp [hpa])]

lemma strip_idem (l : Str) : strip (strip l) = strip l := by
  unfold strip
  rw [lstrip_rstrip_of_lstrip_eq_self (lstrip_idem l), rstrip_idem]

lemma map_nl2sp_eq_self {l : Str} (h : ∀ c ∈ l, c ≠ '\n') : l.map nl2sp = l := by
  induction l with
  | nil => rfl
  | cons a t ih =>
    have ha : a ≠ '\n' := h a (List.mem_cons_self a t)
    have ht : ∀ c ∈ t, c ≠ '\n' := fun c hc => h c (List.mem_cons_of_mem a hc)
    simp [nl2sp, ha, ih ht]

lemma ne_newline_of_mem_map_nl2sp {l : Str} {c : Char} (hc : c ∈ l.map nl2sp) :
    c ≠ '\n' := by
  rcases List.mem_map.mp hc with ⟨a, _, ha⟩
  subst ha
  unfold nl2sp
  by_cases hn : a = '\n'
  · rw [if_pos hn]; decide
  · rw [if_neg hn]; exact hn

lemma clean_idem (l : Str) : cleanStr (cleanStr l) = cleanStr l := by
  have hnl : ∀ c ∈ cleanStr l, c ≠ '\n' := by
    intro c hc
    exact ne_newline_of_mem_map_nl2sp (mem_of_mem_strip hc)
  show strip ((cleanStr l).map nl2sp) = cleanStr l
  rw [map_nl2sp_eq_self hnl]
  show strip (strip (l.map nl2sp)) = cleanStr l
  rw [strip_idem]
  rfl

lemma mem_clean_of_mem {x : Char} {l : Str} (hx : x ∈ l) (hnl : x ≠ '\n')
    (hsp : pyIsSpace x = false) : x ∈ cleanStr l := by
  have h1 : x ∈ l.map nl2sp := by
    have : nl2sp x = x := by rw [nl2sp, if_neg hnl]
    rw [← this]
    exact List.mem_map_of_mem nl2sp hx
  exact mem_strip_of_mem h1 hsp

/- Gate lemmas. -/

lemma hasBengali_strip_of_hasBengali {s : Str} (h : hasBengali s = true) :
    hasBengali (strip s) = true ∧ strip s ≠ [] := by
  rcases List.any_eq_true.mp h with ⟨x, hx, hbx⟩
  have hsp : pyIsSpace x = false := pyIsSpace_eq_false_of_isBengali hbx
  have hmem : x ∈ strip s := mem_strip_of_mem hx hsp
  exact ⟨List.any_eq_true.mpr ⟨x, hmem, hbx⟩, List.ne_nil_of_mem hmem⟩

lemma gate_eq_of_hasBengali {conv : Converter} {s : Str} (h : hasBengali s = true) :
    convert_bijoy_value conv (CellValue.vstr s) = CellValue.vstr s := by
  obtain ⟨hb, hne⟩ := hasBengali_strip_of_hasBengali h
  simp [convert_bijoy_value, hne, hb]

lemma hasBengali_of_hasVowelSign {c : Str} (h : hasVowelSign c = true) :
    hasBengali c = true := by
  rcases List.any_eq_true.mp h with ⟨x, hx, hvx⟩
  exact List.any_eq_true.mpr ⟨x, hx, isBengali_of_isVowelSign hvx⟩

lemma gate_eq_of_hasVowelSign {conv : Converter} {c : Str} (h : hasVowelSign c = true) :
    convert_bijoy_value conv (CellValue.vstr c) = CellValue.vstr c :=
  gate_eq_of_hasBengali (hasBengali_of_hasVowelSign h)

lemma gate_result_cases (conv : Converter) (s : Str) :
    convert_bijoy_value conv (CellValue.vstr s) = CellValue.vstr s ∨
    ∃ c, convert_bijoy_value conv (CellValue.vstr s) = CellValue.vstr c ∧
      hasVowelSign c = true := by
  by_cases h1 : strip s = []
  · left; simp [convert_bijoy_value, h1]
  · cases h2 : hasBengali (strip s) with
    | true => left; simp [convert_bijoy_value, h1, h2]
    | false =>
      cases h3 : (strip s).any pyIsAlpha with
      | false => left; simp [convert_bijoy_value, h1, h2, h3]
      | true =>
        cases hc : conv (strip s) with
        | none => left; simp [convert_bijoy_value, h1, h2, h3, hc]
        | some c =>
          cases h4 : (hasVowelSign c && !(hasInvalidKhandaTa c)) with
          | false => left; simp [convert_bijoy_value, h1, h2, h3, hc, h4]
          | true =>
            right
            refine ⟨c, by simp [convert_bijoy_value, h1, h2, h3, hc, h4], ?_⟩
            exact ((Bool.and_eq_true _ _).mp h4).1

lemma gate_idem (conv : Converter) (v : CellValue) :
    convert_bijoy_value conv (convert_bijoy_value conv v) = convert_bijoy_value conv v := by
  cases v with
  | vstr s =>
    rcases gate_result_cases conv s with h | ⟨c, hc, hv⟩
    · rw [h, h]
    · rw [hc]
      exact gate_eq_of_hasVowelSign hv
  | vnan => rfl
  | vother n => rfl

/- Column-name conversion lemmas. -/

lemma colConvert_eq_of_hasBengali {conv : Converter} {w : Str} (h : hasBengali w = true) :
    colConvert conv w = w := by
  simp [colConvert, h]

lemma colConvert_result_cases (conv : Converter) (w : Str) :
    colConvert conv w = w ∨
    ∃ c, colConvert conv w = cleanStr c ∧ hasVowelSign c = true := by
  cases h1 : hasBengali w with
  | true => left; simp [colConvert, h1]
  | false =>
    cases h2 : w.any pyIsAlpha with
    | false => left; simp [colConvert, h1, h2]
    | true =>
      cases hc : conv w with
      | none => left; simp [colConvert, h1, h2, hc]
      | some c =>
        cases h4 : (hasVowelSign c && !(hasInvalidKhandaTa c)) with
        | false => left; simp [colConvert, h1, h2, hc, h4]
        | true =>
          right
          refine ⟨c, by simp [colConvert, h1, h2, hc, h4], ?_⟩
          exact ((Bool.and_eq_true _ _).mp h4).1

lemma hasBengali_clean_of_hasVowelSign {c : Str} (h : hasVowelSign c = true) :
    hasBengali (cleanStr c) = true := by
  rcases List.any_eq_true.mp h with ⟨x, hx, hvx⟩
  have hnl : x ≠ '\n' := ne_newline_of_isVowelSign hvx
  have hsp : pyIsSpace x = false :=
    pyIsSpace_eq_false_of_isBengali (isBengali_of_isVowelSign hvx)
  exact List.any_eq_true.mpr ⟨x, mem_clean_of_mem hx hnl hsp, isBengali_of_isVowelSign hvx⟩

lemma convert_col_name_idem (conv : Converter) (h : Str) :
    convert_col_name conv (convert_col_name conv h) = convert_col_name conv h := by
  by_cases hu : listStartsWith unnamedTag h = true
  · have hself : convert_col_name conv h = h := by simp [convert_col_name, hu]
    rw [hself, hself]
  · have hout : convert_col_name conv h = colConvert conv (cleanStr h) := by
      simp [convert_col_name, hu]
    rcases colConvert_result_cases conv (cleanStr h) with hx | ⟨c, hx, hv⟩
    · rw [hout, hx]
      by_cases hu2 : listStartsWith unnamedTag (cleanStr h) = true
      · simp [convert_col_name, hu2]
      · simp only [convert_col_name, hu2, if_neg, Bool.not_eq_true, if_false]
        rw [clean_idem]
        exact hx
    · rw [hout, hx]
      by_cases hu2 : listStartsWith unnamedTag (cleanStr c) = true
      · simp [convert_col_name, hu2]
      · simp only [convert_col_name, hu2, if_neg, Bool.not_eq_true, if_false]
        rw [clean_idem]
        exact colConvert_eq_of_hasBengali (hasBengali_clean_of_hasVowelSign hv)

/- Decimal-suffix lemmas. -/

lemma digitChar_toNat {d : Nat} (hd : d < 10) : (digitChar d).toNat = 48 + d := by
  interval_cases d <;> decide

lemma digitChar_inj {d e : Nat} (hd : d < 10) (he : e < 10)
    (h : digitChar d = digitChar e) : d = e := by
  have hh := congrArg Char.toNat h
  rw [digitChar_toNat hd, digitChar_toNat he] at hh
  omega

lemma digitChar_ne_underscore {d : Nat} (hd : d < 10) : digitChar d ≠ '_' := by
  intro h
  have hh := congrArg Char.toNat h
  rw [digitChar_toNat hd] at hh
  have h95 : ('_').toNat = 95 := rfl
  omega

lemma natDigitsAux_fuel_irrel :
    ∀ (f1 : Nat) (f2 n : Nat), n < f1 → n < f2 → natDigitsAux f1 n = natDigitsAux f2 n := by
  intro f1
  induction f1 with
  | zero => intro f2 n h1 _; omega
  | succ f ih =>
    intro f2 n h1 h2
    cases f2 with
    | zero => omega
    | succ g =>
      by_cases hn : n = 0
      · simp [natDigitsAux, hn]
      · have hdiv : n / 10 < n := Nat.div_lt_self (Nat.pos_of_ne_zero hn) (by norm_num)
        simp only [natDigitsAux, if_neg hn]
        rw [ih g (n / 10) (by omega) (by omega)]

lemma natDigitsAux_all_digits :
    ∀ (fuel n : Nat) (c : Char), c ∈ natDigitsAux fuel n → ∃ d, d < 10 ∧ c = digitChar d := by
  intro fuel
  induction fuel with
  | zero => intro n c hc; cases hc
  | succ f ih =>
    intro n c hc
    by_cases hn : n = 0
    · rw [natDigitsAux, if_pos hn] at hc; cases hc
    · rw [natDigitsAux, if_neg hn] at hc
      rcases List.mem_append.mp hc with h1 | h2
      · exact ih (n / 10) c h1
      · rcases List.mem_singleton.mp h2 with h
        exact ⟨n % 10, Nat.mod_lt n (by norm_num), h⟩

lemma natDigits_ne_underscore {n : Nat} {c : Char} (hc : c ∈ natDigits n) : c ≠ '_' := by
  rcases natDigitsAux_all_digits (n + 1) n c hc with ⟨d, hd, he⟩
  rw [he]
  exact digitChar_ne_underscore hd

lemma natDigits_ne_nil {n : Nat} (hn : n ≠ 0) : natDigits n ≠ [] := by
  unfold natDigits natDigitsAux
  rw [if_neg hn]
  simp

lemma natDigits_eq {n : Nat} (hn : n ≠ 0) :
    natDigits n = natDigits (n / 10) ++ [digitChar (n % 10)] := by
  have hdiv : n / 10 < n := Nat.div_lt_self (Nat.pos_of_ne_zero hn) (by norm_num)
  show natDigitsAux (n + 1) n = natDigitsAux (n / 10 + 1) (n / 10) ++ [digitChar (n % 10)]
  rw [natDigitsAux, if_neg hn, natDigitsAux_fuel_irrel n (n / 10 + 1) (n / 10) (by omega) (by omega)]

lemma natDigits_inj : ∀ {n m : Nat}, natDigits n = natDigits m → n = m := by
  intro n
  induction n using Nat.strong_induction_on with
  | _ n ih =>
    intro m h
    by_cases hn : n = 0
    · by_cases hm : m = 0
      · omega
      · subst hn
        exact absurd h.symm (by simpa using natDigits_ne_nil hm)
    · by_cases hm : m = 0
      · subst hm
        exact absurd h (by simpa using natDigits_ne_nil hn)
      · rw [natDigits_eq hn, natDigits_eq hm] at h
        obtain ⟨hpre, hlast⟩ := List.append_inj' h (by simp)
        have hmod : n % 10 = m % 10 := by
          have hd1 : n % 10 < 10 := Nat.mod_lt n (by norm_num)
          have hd2 : m % 10 < 10 := Nat.mod_lt m (by norm_num)
          exact digitChar_inj hd1 hd2 (List.singleton_injective hlast)
        have hdivlt : n / 10 < n := Nat.div_lt_self (Nat.pos_of_ne_zero hn) (by norm_num)
        have hdiv : n / 10 = m / 10 := ih (n / 10) hdivlt hpre
        omega

lemma sfx_inj {k j : Nat} (h : sfx k = sfx j) : k = j := by
  unfold sfx at h
  injection h with h1 h2
  exact natDigits_inj h2

lemma append_sfx_ne_of_length_lt {a b : Str} {k j : Nat} (hl : a.length < b.length) :
    a ++ sfx k ≠ b ++ sfx j := by
  intro h
  have ha : (a ++ sfx k).take a.length = a := List.take_left a _
  have hble : (b ++ sfx j).take a.length = b.take a.length := by
    rw [List.take_append_eq_append_take]
    have hz : a.length - b.length = 0 := by omega
    rw [hz]
    simp
  have hab : a = b.take a.length := by
    have h3 := ha
    rw [h, hble] at h3
    exact h3.symm
  have hbe : a ++ b.drop a.length = b := by
    have h0 := List.take_append_drop a.length b
    rw [← hab] at h0
    exact h0
  have hdlen : (b.drop a.length).length = b.length - a.length := List.length_drop _ _
  have hsfx : sfx k = b.drop a.length ++ sfx j := by
    have h2 : a ++ sfx k = a ++ (b.drop a.length ++ sfx j) := by
      rw [← List.append_assoc, hbe]
      exact h
    exact List.append_cancel_left h2
  cases hdrop : b.drop a.length with
  | nil => rw [hdrop] at hdlen; simp at hdlen; omega
  | cons x t2 =>
    rw [hdrop] at hsfx
    have hsfx2 : '_' :: natDigits k = x :: (t2 ++ sfx j) := hsfx
    injection hsfx2 with hx htail
    have hmem : '_' ∈ natDigits k := by
      rw [htail]
      exact List.mem_append_right _ (by simp [sfx])
    exact natDigits_ne_underscore hmem rfl

lemma append_sfx_inj {a b : Str} {k j : Nat} (h : a ++ sfx k = b ++ sfx j) :
    a = b ∧ k = j := by
  rcases Nat.lt_trichotomy a.length b.length with hl | hl | hl
  · exact absurd h (append_sfx_ne_of_length_lt hl)
  · obtain ⟨h1, h2⟩ := List.append_inj h hl
    exact ⟨h1, sfx_inj h2⟩
  · exact absurd h.symm (append_sfx_ne_of_length_lt hl)

/- countStr lemmas. -/

lemma countStr_append (x : Str) (l1 l2 : List Str) :
    countStr x (l1 ++ l2) = countStr x l1 + countStr x l2 := by
  induction l1 with
  | nil => simp [countStr]
  | cons y t ih =>
    show (if y = x then 1 else 0) + countStr x (t ++ l2) =
      ((if y = x then 1 else 0) + countStr x t) + countStr x l2
    rw [ih, Nat.add_assoc]

lemma countStr_singleton (x y : Str) : countStr x [y] = if y = x then 1 else 0 := by
  simp [countStr]

/- The dedup loop refines the spec-side dedup. -/

lemma lookupSeen_bump {seen : List (Str × Nat)} {c : Str} {m : Nat}
    (hm : lookupSeen seen c = some m) (n : Str) :
    lookupSeen (bumpSeen seen c) n =
      if n = c then some (m + 1) else lookupSeen seen n := by
  induction seen with
  | nil => cases hm
  | cons p rest ih =>
    obtain ⟨k, v⟩ := p
    by_cases hkc : k = c
    · have hv : v = m := by
        rw [show lookupSeen ((k, v) :: rest) c = if k = c then some v else lookupSeen rest c
          from rfl, if_pos hkc] at hm
        injection hm
      have hbump : bumpSeen ((k, v) :: rest) c = (k, v + 1) :: rest := by
        show (if k = c then (k, v + 1) :: rest else (k, v) :: bumpSeen rest c) = _
        rw [if_pos hkc]
      rw [hbump]
      by_cases hnc : n = c
      · have hkn : k = n := by rw [hkc, hnc]
        rw [if_pos hnc]
        show (if k = n then some (v + 1) else lookupSeen rest n) = some (m + 1)
        rw [if_pos hkn, hv]
      · have hkn : ¬ (k = n) := fun he => hnc (by rw [← he, hkc])
        rw [if_neg hnc]
        show (if k = n then some (v + 1) else lookupSeen rest n) =
          lookupSeen ((k, v) :: rest) n
        rw [if_neg hkn]
        show lookupSeen rest n = if k = n then some v else lookupSeen rest n
        rw [if_neg hkn]
    · have hm2 : lookupSeen rest c = some m := by
        rw [show lookupSeen ((k, v) :: rest) c = if k = c then some v else lookupSeen rest c
          from rfl, if_neg hkc] at hm
        exact hm
      have hbump : bumpSeen ((k, v) :: rest) c = (k, v) :: bumpSeen rest c := by
        show (if k = c then (k, v + 1) :: rest else (k, v) :: bumpSeen rest c) = _
        rw [if_neg hkc]
      rw [hbump]
      by_cases hkn : k = n
      · have hnc : ¬ (n = c) := fun he => hkc (hkn.trans he)
        rw [if_neg hnc]
        show (if k = n then some v else lookupSeen (bumpSeen rest c) n) =
          lookupSeen ((k, v) :: rest) n
        rw [if_pos hkn]
        show some v = if k = n then some v else lookupSeen rest n
        rw [if_pos hkn]
      · show (if k = n then some v else lookupSeen (bumpSeen rest c) n) = _
        rw [if_neg hkn, ih hm2]
        by_cases hnc : n = c
        · rw [if_pos hnc, if_pos hnc]
        · rw [if_neg hnc, if_neg hnc]
          show lookupSeen rest n = if k = n then some v else lookupSeen rest n
          rw [if_neg hkn]

lemma dedupNames_eq_dedupSpec_aux :
    ∀ (cs : List Str) (seen : List (Str × Nat)) (past : List Str),
      (∀ n, lookupSeen seen n =
        if countStr n past = 0 then none else some (countStr n past - 1)) →
      dedupNames seen cs = dedupSpec past cs := by
  intro cs
  induction cs with
  | nil => intro seen past _; rfl
  | cons c rest ih =>
    intro seen past hinv
    have hc := hinv c
    by_cases h0 : countStr c past = 0
    · rw [if_pos h0] at hc
      simp only [dedupNames, dedupSpec, hc, h0, if_pos]
      congr 1
      apply ih
      intro n
      by_cases hnc : n = c
      · show (if c = n then some 0 else lookupSeen seen n) = _
        rw [if_pos hnc.symm, countStr_append, countStr_singleton, if_pos hnc.symm, hnc, h0]
        simp
      · have hcn : ¬ (c = n) := fun he => hnc he.symm
        show (if c = n then some 0 else lookupSeen seen n) = _
        rw [if_neg hcn, countStr_append, countStr_singleton, if_neg hcn, Nat.add_zero]
        exact hinv n
    · rw [if_neg h0] at hc
      have hk : countStr c past - 1 + 1 = countStr c past :=
        Nat.succ_pred_eq_of_pos (Nat.pos_of_ne_zero h0)
      simp only [dedupNames, dedupSpec, hc, h0, if_neg, if_false, hk]
      congr 1
      apply ih
      intro n
      rw [lookupSeen_bump hc n]
      by_cases hnc : n = c
      · rw [if_pos hnc, countStr_append, countStr_singleton, if_pos hnc.symm, hnc]
        have hppos : ¬ (countStr c past + 1 = 0) := by omega
        rw [if_neg hppos]
        congr 1
      · have hcn : ¬ (c = n) := fun he => hnc he.symm
        rw [if_neg hnc, countStr_append, countStr_singleton, if_neg hcn, Nat.add_zero]
        exact hinv n

lemma dedupNames_eq_dedupSpec (cs : List Str) : dedupNames [] cs = dedupSpec [] cs :=
  dedupNames_eq_dedupSpec_aux cs [] [] (fun _ => rfl)

lemma dedupSpec_eq_self :
    ∀ (cs past : List Str), List.Pairwise (fun x y => x ≠ y) cs →
      (∀ x ∈ cs, countStr x past = 0) → dedupSpec past cs = cs := by
  intro cs
  induction cs with
  | nil => intro past _ _; rfl
  | cons c rest ih =>
    intro past hpw h2
    have hc0 : countStr c past = 0 := h2 c (List.mem_cons_self c rest)
    simp only [dedupSpec, hc0, if_pos]
    congr 1
    apply ih
    · exact (List.pairwise_cons.mp hpw).2
    · intro x hx
      rw [countStr_append, countStr_singleton,
        if_neg ((List.pairwise_cons.mp hpw).1 x hx), Nat.add_zero]
      exact h2 x (List.mem_cons_of_mem _ hx)

lemma mem_dedupSpec :
    ∀ (cs q : List Str) (y : Str), y ∈ dedupSpec q cs →
      ∃ d, d ∈ cs ∧ ((y = d ∧ countStr d q = 0) ∨
        ∃ k, y = d ++ sfx k ∧ 1 ≤ k ∧ countStr d q ≤ k) := by
  intro cs
  induction cs with
  | nil => intro q y hy; cases hy
  | cons c rest ih =>
    intro q y hy
    simp only [dedupSpec] at hy
    rcases List.mem_cons.mp hy with hhead | htail
    · by_cases h0 : countStr c q = 0
      · exact ⟨c, List.mem_cons_self c rest, Or.inl ⟨by rw [hhead, if_pos h0], h0⟩⟩
      · exact ⟨c, List.mem_cons_self c rest,
          Or.inr ⟨countStr c q, by rw [hhead, if_neg h0],
            Nat.pos_of_ne_zero h0, Nat.le_refl _⟩⟩
    · rcases ih (q ++ [c]) y htail with ⟨d, hd, hcase⟩
      refine ⟨d, List.mem_cons_of_mem _ hd, ?_⟩
      rcases hcase with ⟨hy2, h0⟩ | ⟨k, hy2, hk1, hk2⟩
      · left
        refine ⟨hy2, ?_⟩
        rw [countStr_append] at h0
        omega
      · right
        refine ⟨k, hy2, hk1, ?_⟩
        rw [countStr_append] at hk2
        omega

lemma dedupSpec_pairwise :
    ∀ (cs q : List Str),
      (∀ a b, a ∈ q ++ cs → b ∈ q ++ cs → ∀ k, 1 ≤ k → a ≠ b ++ sfx k) →
      List.Pairwise (fun x y => x ≠ y) (dedupSpec q cs) := by
  intro cs
  induction cs with
  | nil => intro q _; exact List.Pairwise.nil
  | cons c rest ih =>
    intro q hH
    simp only [dedupSpec]
    refine List.pairwise_cons.mpr ⟨?_, ?_⟩
    · intro y hy
      rcases mem_dedupSpec rest (q ++ [c]) y hy with ⟨d, hd, hcase⟩
      have hcq : c ∈ q ++ c :: rest := by simp
      have hdq : d ∈ q ++ c :: rest := by simp [hd]
      by_cases h0 : countStr c q = 0
      · rw [if_pos h0]
        rcases hcase with ⟨hy2, hd0⟩ | ⟨k, hy2, hk1, _⟩
        · intro he
          rw [hy2] at he
          rw [← he, countStr_append, countStr_singleton, if_pos rfl] at hd0
          omega
        · rw [hy2]
          exact hH c d hcq hdq k hk1
      · rw [if_neg h0]
        rcases hcase with ⟨hy2, _⟩ | ⟨k, hy2, _, hk2⟩
        · rw [hy2]
          intro he
          exact hH d c hdq hcq (countStr c q) (Nat.pos_of_ne_zero h0) he.symm
        · rw [hy2]
          intro he
          obtain ⟨hcd, hkk⟩ := append_sfx_inj he
          rw [← hcd, countStr_append, countStr_singleton, if_pos rfl] at hk2
          omega
    · apply ih
      intro a b ha hb k hk
      apply hH a b ?_ ?_ k hk
      · rw [List.append_assoc] at ha
        exact ha
      · rw [List.append_assoc] at hb
        exact hb

/- Cell-level idempotence including the NaN replacement. -/

lemma cell_step_idem (conv : Converter) (v : CellValue) :
    replace_nan (convert_bijoy_value conv (replace_nan (convert_bijoy_value conv v))) =
      replace_nan (convert_bijoy_value conv v) := by
  cases hv : convert_bijoy_value conv v with
  | vnan => rfl
  | vother n => rfl
  | vstr s =>
    have hrep : replace_nan (CellValue.vstr s) = CellValue.vstr s := rfl
    rw [hrep]
    have h2 : convert_bijoy_value conv (CellValue.vstr s) = CellValue.vstr s := by
      have h3 := gate_idem conv v
      rw [hv] at h3
      exact h3
    rw [h2]
    exact hrep

lemma row_step_idem (conv : Converter) (r : List CellValue) :
    ((((r.map (convert_bijoy_value conv)).map replace_nan).map
        (convert_bijoy_value conv)).map replace_nan) =
      (r.map (convert_bijoy_value conv)).map replace_nan := by
  simp only [List.map_map]
  apply List.map_congr_left
  intro v _
  simpa using cell_step_idem conv v

lemma headers_idem (conv : Converter) (hs : List Str)
    (hdist : List.Pairwise (fun x y => x ≠ y) (hs.map (convert_col_name conv))) :
    dedupNames []
        ((dedupNames [] (hs.map (convert_col_name conv))).map (convert_col_name conv)) =
      dedupNames [] (hs.map (convert_col_name conv)) := by
  have h1 : dedupNames [] (hs.map (convert_col_name conv)) = hs.map (convert_col_name conv) := by
    rw [dedupNames_eq_dedupSpec]
    exact dedupSpec_eq_self _ [] hdist (fun x _ => rfl)
  rw [h1]
  have h2 : (hs.map (convert_col_name conv)).map (convert_col_name conv) =
      hs.map (convert_col_name conv) := by
    rw [List.map_map]
    apply List.map_congr_left
    intro x _
    simpa using convert_col_name_idem conv x
  rw [h2, h1]

/- A final Khanda Ta creates no invalid occurrence. -/

lemma hasInvalidKhandaTa_append_khandaTa :
    ∀ (t : Str), khandaTa ∉ t →
      hasInvalidKhandaTa (t ++ [khandaTa]) = hasInvalidKhandaTa t := by
  intro t
  induction t with
  | nil => intro _; rfl
  | cons x t2 ih =>
    intro hmem
    have hx : ¬ (x = khandaTa) := fun he => hmem (by rw [he]; exact List.mem_cons_self _ _)
    cases t2 with
    | nil =>
      show ((decide (x = khandaTa) && isBengali khandaTa) || hasInvalidKhandaTa [khandaTa]) =
        hasInvalidKhandaTa [x]
      simp [hasInvalidKhandaTa, hx]
    | cons y t3 =>
      have ht : khandaTa ∉ y :: t3 := fun hm => hmem (List.mem_cons_of_mem _ hm)
      have hstep := ih ht
      rw [List.cons_append] at hstep
      show ((decide (x = khandaTa) && isBengali y) ||
          hasInvalidKhandaTa (y :: (t3 ++ [khandaTa]))) =
        ((decide (x = khandaTa) && isBengali y) || hasInvalidKhandaTa (y :: t3))
      rw [hstep]

/- The reporter and main Gates agree on pre-stripped alphabetic strings. -/

lemma reporter_eq_main_of_stripped (conv : Converter) (s : Str)
    (hstrip : strip s = s) (halpha : s.any pyIsAlpha = true) :
    convert_bijoy_value conv (CellValue.vstr s) =
      main_convert_bijoy_in_value conv (CellValue.vstr s) := by
  have hne : ¬ (s = []) := by
    rcases List.any_eq_true.mp halpha with ⟨x, hx, _⟩
    exact List.ne_nil_of_mem hx
  simp only [convert_bijoy_value, main_convert_bijoy_in_value, hstrip, halpha, if_neg hne,
    Bool.not_true]
  simp

/- Resolver bound lemmas. -/

lemma findIdx_lt_of_mem {l : List Str} {x : Str} (hx : x ∈ l) :
    l.findIdx (fun c => c = x) < l.length :=
  List.findIdx_lt_length_of_exists ⟨x, hx, by simp⟩

lemma findExact_some_lt {lower : List Str} {es : List Str} {i : Nat}
    (h : findExact lower es = some i) : i < lower.length := by
  induction es with
  | nil => cases h
  | cons e rest ih =>
    by_cases he : e ∈ lower
    · simp only [findExact, if_pos he] at h
      injection h with h2
      rw [← h2]
      exact findIdx_lt_of_mem he
    · simp only [findExact, if_neg he] at h
      exact ih h

lemma lowerCols_length (cols : List Str) : (lowerCols cols).length = cols.length := by
  simp [lowerCols]

lemma detectIdIdx_exact {cols : List Str} {i : Nat}
    (h : findExact (lowerCols cols) ID_EXACT = some i) : detectIdIdx cols = (i : Int) := by
  unfold detectIdIdx
  rw [h]

lemma detectIdIdx_noexact {cols : List Str}
    (h : findExact (lowerCols cols) ID_EXACT = none) :
    detectIdIdx cols = (if (lowerCols cols).any idKwPred = true
      then ((lowerCols cols).findIdx idKwPred : Int)
      else min 3 ((cols.length : Int) - 1)) := by
  unfold detectIdIdx
  rw [h]

lemma detectNameIdxRaw_exact {cols : List Str} {i : Nat}
    (h : findExact (lowerCols cols) NAME_EXACT = some i) :
    detectNameIdxRaw cols = (i : Int) := by
  unfold detectNameIdxRaw
  rw [h]

lemma detectNameIdxRaw_noexact {cols : List Str}
    (h : findExact (lowerCols cols) NAME_EXACT = none) :
    detectNameIdxRaw cols = (if (lowerCols cols).any nameKwPred = true
      then ((lowerCols cols).findIdx nameKwPred : Int)
      else min 5 ((cols.length : Int) - 1)) := by
  unfold detectNameIdxRaw
  rw [h]

lemma detectIdIdx_bounds (cols : List Str) (hne : cols ≠ []) :
    0 ≤ detectIdIdx cols ∧ detectIdIdx cols < (cols.length : Int) := by
  have hl : 1 ≤ (cols.length : Int) := by
    have := List.length_pos.mpr hne
    exact_mod_cast this
  cases hfe : findExact (lowerCols cols) ID_EXACT with
  | some i =>
    have hi := findExact_some_lt hfe
    rw [lowerCols_length] at hi
    rw [detectIdIdx_exact hfe]
    constructor
    · exact Int.natCast_nonneg i
    · exact_mod_cast hi
  | none =>
    rw [detectIdIdx_noexact hfe]
    by_cases hkw : (lowerCols cols).any idKwPred = true
    · rw [if_pos hkw]
      have hfi : (lowerCols cols).findIdx idKwPred < (lowerCols cols).length := by
        rcases List.any_eq_true.mp hkw with ⟨x, hx, hp⟩
        exact List.findIdx_lt_length_of_exists ⟨x, hx, hp⟩
      rw [lowerCols_length] at hfi
      constructor
      · exact Int.natCast_nonneg _
      · exact_mod_cast hfi
    · rw [if_neg hkw]
      constructor
      · exact le_min (by omega) (by omega)
      · exact lt_of_le_of_lt (min_le_right _ _) (by omega)

lemma detectNameIdxRaw_bounds (cols : List Str) (hne : cols ≠ []) :
    0 ≤ detectNameIdxRaw cols ∧ detectNameIdxRaw cols < (cols.length : Int) := by
  have hl : 1 ≤ (cols.length : Int) := by
    have := List.length_pos.mpr hne
    exact_mod_cast this
  cases hfe : findExact (lowerCols cols) NAME_EXACT with
  | some i =>
    have hi := findExact_some_lt hfe
    rw [lowerCols_length] at hi
    rw [detectNameIdxRaw_exact hfe]
    constructor
    · exact Int.natCast_nonneg i
    · exact_mod_cast hi
  | none =>
    rw [detectNameIdxRaw_noexact hfe]
    by_cases hkw : (lowerCols cols).any nameKwPred = true
    · rw [if_pos hkw]
      have hfi : (lowerCols cols).findIdx nameKwPred < (lowerCols cols).length := by
        rcases List.any_eq_true.mp hkw with ⟨x, hx, hp⟩
        exact List.findIdx_lt_length_of_exists ⟨x, hx, hp⟩
      rw [lowerCols_length] at hfi
      constructor
      · exact Int.natCast_nonneg _
      · exact_mod_cast hfi
    · rw [if_neg hkw]
      constructor
      · exact le_min (by omega) (by omega)
      · exact lt_of_le_of_lt (min_le_right _ _) (by omega)

/- Coherence of the value-level and string-level main Gate. -/

lemma main_gate_str_coherent (conv : Converter) (s : Str) :
    main_convert_bijoy_in_value conv (CellValue.vstr s) =
      CellValue.vstr (main_convert_bijoy_str conv s) := by
  by_cases h1 : strip s = []
  · simp [main_convert_bijoy_in_value, main_convert_bijoy_str, h1]
  · cases h2 : hasBengali s with
    | true => simp [main_convert_bijoy_in_value, main_convert_bijoy_str, h1, h2]
    | false =>
      cases hc : conv s with
      | none => simp [main_convert_bijoy_in_value, main_convert_bijoy_str, h1, h2, hc]
      | some c =>
        cases h4 : (hasVowelSign c && !(hasInvalidKhandaTa c)) with
        | true => simp [main_convert_bijoy_in_value, main_convert_bijoy_str, h1, h2, hc, h4]
        | false => simp [main_convert_bijoy_in_value, main_convert_bijoy_str, h1, h2, hc, h4]


/-- C1: for a non-empty string value with no Bengali-block character and at
least one alphabetic character, when the external converter succeeds on the
stripped text and produces converted, the Gate convert_bijoy_value returns
converted exactly when converted contains a dependent vowel sign
(U+09BE..U+09CC) and contains no Khanda Ta immediately followed by a
Bengali-block character, and returns the original value otherwise; a Khanda
Ta in final position creates no invalid occurrence. -/
theorem claim1_gate_accept_decision (conv : Converter) (value converted : Str)
    (hne : value ≠ []) (hbn : hasBengali value = false)
    (halpha : value.any pyIsAlpha = true)
    (hconv : conv (strip value) = some converted) :
    convert_bijoy_value conv (CellValue.vstr value) =
      (if hasVowelSign converted && !(hasInvalidKhandaTa converted) then
        CellValue.vstr converted
      else CellValue.vstr value) ∧
    (∀ t : Str, khandaTa ∉ t →
      hasInvalidKhandaTa (t ++ [khandaTa]) = hasInvalidKhandaTa t) := by
  constructor
  · rcases List.any_eq_true.mp halpha with ⟨a, hamem, haal⟩
    have hasp : pyIsSpace a = false := pyIsSpace_eq_false_of_pyIsAlpha haal
    have hastrip : a ∈ strip value := mem_strip_of_mem hamem hasp
    have hsne : ¬ (strip value = []) := List.ne_nil_of_mem hastrip
    have hsbn : hasBengali (strip value) = false := by
      cases hv : hasBengali (strip value)
      · rfl
      · exfalso
        rcases List.any_eq_true.mp hv with ⟨x, hx, hbx⟩
        have hcontra : hasBengali value = true :=
          List.any_eq_true.mpr ⟨x, mem_of_mem_strip hx, hbx⟩
        rw [hbn] at hcontra
        cases hcontra
    have hsal : (strip value).any pyIsAlpha = true := List.any_eq_true.mpr ⟨a, hastrip, haal⟩
    simp [convert_bijoy_value, hsne, hsbn, hsal, hconv]
  · exact hasInvalidKhandaTa_append_khandaTa

theorem claim1_gate_accept_decision_witness :
    convert_bijoy_value convBa (CellValue.vstr (strL "ab")) = CellValue.vstr baStr := by
  have h := (claim1_gate_accept_decision convBa (strL "ab") baStr (by decide) (by decide)
    (by decide) rfl).1
  rw [h]
  decide

/-- C2: for any string containing at least one Bengali-block character, the
Gate returns the original string unchanged for every converter behaviour,
so the converter is never consulted. -/
theorem claim2_bengali_passthrough (conv : Converter) (s : Str)
    (h : hasBengali s = true) :
    convert_bijoy_value conv (CellValue.vstr s) = CellValue.vstr s :=
  gate_eq_of_hasBengali h

theorem claim2_bengali_passthrough_witness :
    hasBengali (strL "নাম x") = true ∧
    convert_bijoy_value convBa (CellValue.vstr (strL "নাম x")) =
      CellValue.vstr (strL "নাম x") :=
  ⟨by decide, claim2_bengali_passthrough convBa (strL "নাম x") (by decide)⟩

/-- C3: whenever the external converter raises (modelled as returning none),
both the reporter Gate and the main Gate return the original value unchanged;
being total Lean functions they propagate no error. -/
theorem claim3_converter_failure_passthrough (conv : Converter) (s : Str) :
    (conv (strip s) = none →
      convert_bijoy_value conv (CellValue.vstr s) = CellValue.vstr s) ∧
    (conv s = none →
      main_convert_bijoy_in_value conv (CellValue.vstr s) = CellValue.vstr s) := by
  constructor
  · intro hc
    by_cases h1 : strip s = []
    · simp [convert_bijoy_value, h1]
    · cases h2 : hasBengali (strip s) with
      | true => simp [convert_bijoy_value, h1, h2]
      | false =>
        cases h3 : (strip s).any pyIsAlpha with
        | false => simp [convert_bijoy_value, h1, h2, h3]
        | true => simp [convert_bijoy_value, h1, h2, h3, hc]
  · intro hc
    by_cases h1 : strip s = []
    · simp [main_convert_bijoy_in_value, h1]
    · cases h2 : hasBengali s with
      | true => simp [main_convert_bijoy_in_value, h1, h2]
      | false => simp [main_convert_bijoy_in_value, h1, h2, hc]

theorem claim3_converter_failure_passthrough_witness :
    convert_bijoy_value convNone (CellValue.vstr (strL "ab")) = CellValue.vstr (strL "ab") ∧
    main_convert_bijoy_in_value convNone (CellValue.vstr (strL "ab")) =
      CellValue.vstr (strL "ab") :=
  ⟨(claim3_converter_failure_passthrough convNone (strL "ab")).1 rfl,
   (claim3_converter_failure_passthrough convNone (strL "ab")).2 rfl⟩

/-- C4 counterexample: with the fixed deterministic converter convAcceptName1,
the pipeline is not idempotent on the two-header table Name, Name: the first
pass emits the fresh suffixed header Name_1, which the second pass converts
to Bengali text, changing the table again. -/
theorem claim4_idempotence_cx :
    load_and_process_excel convAcceptName1 (load_and_process_excel convAcceptName1 tblNN) ≠
      load_and_process_excel convAcceptName1 tblNN := by
  decide

/-- C4 amended: with the external converter a fixed deterministic function,
cell conversion is idempotent and the whole pipeline is idempotent on every
table whose converted header names are pairwise distinct, so that no dedup
suffix is introduced; a table that needs a dedup suffix can be converted
differently by the second pass (see the counterexample). -/
theorem claim4_idempotence_amended (conv : Converter) (t : Table)
    (hdist : List.Pairwise (fun x y => x ≠ y) (t.headers.map (convert_col_name conv))) :
    load_and_process_excel conv (load_and_process_excel conv t) =
      load_and_process_excel conv t := by
  simp only [load_and_process_excel, Table.mk.injEq]
  refine ⟨headers_idem conv t.headers hdist, ?_, trivial⟩
  rw [List.map_map]
  apply List.map_congr_left
  intro r _
  simpa using row_step_idem conv r

theorem claim4_idempotence_amended_witness :
    List.Pairwise (fun x y : Str => x ≠ y) (tblAB.headers.map (convert_col_name convNone)) ∧
    load_and_process_excel convNone (load_and_process_excel convNone tblAB) =
      load_and_process_excel convNone tblAB :=
  ⟨by decide, claim4_idempotence_amended convNone tblAB (by decide)⟩

/-- C5 counterexample: load_and_process_excel does not apply one identical
function to all three surfaces: on the table tblIdx the cell value ab is
converted to Bengali text while the identical row-index label ab is left
untouched, because the reporter pipeline never converts the index. -/
theorem claim5_surfaces_cx :
    (load_and_process_excel convAb tblIdx).rows = [[CellValue.vstr baStr]] ∧
    (load_and_process_excel convAb tblIdx).index = [CellValue.vstr (strL "ab")] ∧
    CellValue.vstr baStr ≠ CellValue.vstr (strL "ab") := by
  decide

/-- C5 amended: load_and_process_excel applies convert_bijoy_value to string
cells, the header-specific convert_col_name (which adds an Unnamed
pass-through and newline/whitespace cleanup) to headers, and leaves the row
index untouched; the companion apply_to_df of converting_files/main.py does
apply the identical Gate convert_bijoy_in_value to cells, headers and index
labels. -/
theorem claim5_surfaces_amended (conv : Converter) (t : Table) :
    (load_and_process_excel conv t).index = t.index ∧
    (load_and_process_excel conv t).rows =
      t.rows.map (fun r => (r.map (convert_bijoy_value conv)).map replace_nan) ∧
    (load_and_process_excel conv t).headers =
      dedupNames [] (t.headers.map (convert_col_name conv)) ∧
    (apply_to_df conv t).headers = t.headers.map (main_convert_bijoy_str conv) ∧
    (apply_to_df conv t).rows =
      t.rows.map (fun r => r.map (main_convert_bijoy_in_value conv)) ∧
    (apply_to_df conv t).index = t.index.map (main_convert_bijoy_in_value conv) ∧
    (∀ s : Str, main_convert_bijoy_in_value conv (CellValue.vstr s) =
      CellValue.vstr (main_convert_bijoy_str conv s)) ∧
    (∀ conv2 : Converter, convert_col_name conv2 (strL "Unnamed: 0") = strL "Unnamed: 0") := by
  refine ⟨rfl, rfl, rfl, rfl, rfl, rfl, main_gate_str_coherent conv, ?_⟩
  intro conv2
  have hu : listStartsWith unnamedTag (strL "Unnamed: 0") = true := by decide
  unfold convert_col_name
  rw [if_pos hu]

/-- C6 counterexample: on headers Name, Name, Name_1 with a converter that
always fails, the third converted label equals the already-emitted second
output label Name_1, yet the dedup loop emits it again with no suffix,
because the loop keys on converted names and never records suffixed names. -/
theorem claim6_dedup_cx :
    (load_and_process_excel convNone tblNNN1).headers =
      [strL "Name", strL "Name_1", strL "Name_1"] ∧
    [strL "Name", strL "Name_1", strL "Name_1"] ≠
      [strL "Name", strL "Name_1", strL "Name_1_1"] := by
  decide

/-- C6 amended: the dedup walk suffixes a header exactly by the number of
earlier occurrences of its converted name among the converted names, not
among the emitted disambiguated labels: the emitted sequence equals
dedupSpec, which counts prior occurrences of the converted name and appends
an underscore and that 1-based count (the first occurrence is unsuffixed);
in particular headers Name, Name come out as Name, Name_1. -/
theorem claim6_dedup_amended :
    (∀ (conv : Converter) (t : Table),
      (load_and_process_excel conv t).headers =
        dedupSpec [] (t.headers.map (convert_col_name conv))) ∧
    (load_and_process_excel convNone tblNN).headers = [strL "Name", strL "Name_1"] := by
  refine ⟨fun conv t => ?_, by decide⟩
  show dedupNames [] (t.headers.map (convert_col_name conv)) = _
  exact dedupNames_eq_dedupSpec _

/-- C7 counterexample: on headers a, a, a_1 with a converter that always
fails, the output header sequence a, a_1, a_1 contains two equal labels, so
the produced header sequence is not unique. -/
theorem claim7_unique_cx :
    (load_and_process_excel convNone tblAAA1).headers =
      [strL "a", strL "a_1", strL "a_1"] ∧
    ¬ List.Pairwise (fun x y : Str => x ≠ y) [strL "a", strL "a_1", strL "a_1"] := by
  decide

/-- C7 amended: the output header labels are pairwise distinct provided no
converted header name equals a converted header name with an underscore and
a positive decimal number appended, the only way a raw converted name can
collide with a dedup-suffixed label. -/
theorem claim7_unique_amended (conv : Converter) (t : Table)
    (hH : ∀ a b : Str, a ∈ t.headers.map (convert_col_name conv) →
      b ∈ t.headers.map (convert_col_name conv) → ∀ k : Nat, 1 ≤ k → a ≠ b ++ sfx k) :
    List.Pairwise (fun x y => x ≠ y) (load_and_process_excel conv t).headers := by
  show List.Pairwise _ (dedupNames [] (t.headers.map (convert_col_name conv)))
  rw [dedupNames_eq_dedupSpec]
  apply dedupSpec_pairwise
  intro a b ha hb k hk
  exact hH a b (by simpa using ha) (by simpa using hb) k hk

theorem claim7_unique_amended_witness :
    List.Pairwise (fun x y : Str => x ≠ y)
      (load_and_process_excel convNone tblAB).headers := by
  apply claim7_unique_amended
  intro a b ha hb k hk heq
  have hmap : tblAB.headers.map (convert_col_name convNone) = [strL "a", strL "b"] := by
    decide
  rw [hmap] at ha hb
  have hla : a.length = 1 := by
    rcases List.mem_cons.mp ha with h | h
    · rw [h]; rfl
    · rw [List.mem_singleton.mp h]; rfl
  have hlb : b.length = 1 := by
    rcases List.mem_cons.mp hb with h | h
    · rw [h]; rfl
    · rw [List.mem_singleton.mp h]; rfl
  have hdig : 1 ≤ (natDigits k).length := by
    have hnn := natDigits_ne_nil (show k ≠ 0 by omega)
    exact List.length_pos.mpr hnn
  have hlen := congrArg List.length heq
  rw [List.length_append] at hlen
  have hsl : (sfx k).length = (natDigits k).length + 1 := by simp [sfx]
  omega

/-- C8 counterexample: on the empty header list the resolver returns the pair
(-1, -1) without raising, and -1 is not a valid index, so the resolver is not
total in the claimed sense on every header list. -/
theorem claim8_resolver_total_cx :
    detect_id_name_cols [] = (-1, -1) ∧ ¬ (0 ≤ (-1 : Int)) := by
  exact ⟨by decide, by decide⟩

/-- C8 amended: for every non-empty header list the resolver returns a pair
of indices in range; when its two independent searches select the same index
the name index becomes the identifier index plus one when that is in range
and is otherwise left equal; the single-column list x yields the pair (0, 0). -/
theorem claim8_resolver_total_amended :
    (∀ cols : List Str, cols ≠ [] →
      (0 ≤ (detect_id_name_cols cols).1 ∧
        (detect_id_name_cols cols).1 < (cols.length : Int) ∧
        0 ≤ (detect_id_name_cols cols).2 ∧
        (detect_id_name_cols cols).2 < (cols.length : Int)) ∧
      (detectNameIdxRaw cols = detectIdIdx cols →
        (detect_id_name_cols cols).2 =
          (if detectIdIdx cols + 1 < (cols.length : Int) then detectIdIdx cols + 1
           else detectIdIdx cols))) ∧
    detect_id_name_cols [strL "x"] = (0, 0) := by
  refine ⟨fun cols hne => ?_, by decide⟩
  obtain ⟨hid0, hid1⟩ := detectIdIdx_bounds cols hne
  obtain ⟨hn0, hn1⟩ := detectNameIdxRaw_bounds cols hne
  have hfst : (detect_id_name_cols cols).1 = detectIdIdx cols := rfl
  have hsnd : (detect_id_name_cols cols).2 =
      (if detectNameIdxRaw cols = detectIdIdx cols then
        (if detectIdIdx cols + 1 < (cols.length : Int) then detectIdIdx cols + 1
         else detectIdIdx cols)
      else detectNameIdxRaw cols) := rfl
  refine ⟨⟨by rw [hfst]; exact hid0, by rw [hfst]; exact hid1, ?_, ?_⟩, ?_⟩
  · rw [hsnd]
    by_cases hcol : detectNameIdxRaw cols = detectIdIdx cols
    · rw [if_pos hcol]
      by_cases hlt : detectIdIdx cols + 1 < (cols.length : Int)
      · rw [if_pos hlt]; omega
      · rw [if_neg hlt]; exact hid0
    · rw [if_neg hcol]; exact hn0
  · rw [hsnd]
    by_cases hcol : detectNameIdxRaw cols = detectIdIdx cols
    · rw [if_pos hcol]
      by_cases hlt : detectIdIdx cols + 1 < (cols.length : Int)
      · rw [if_pos hlt]; exact hlt
      · rw [if_neg hlt]; exact hid1
    · rw [if_neg hcol]; exact hn1
  · intro hcol
    rw [hsnd, if_pos hcol]

theorem claim8_resolver_total_amended_witness :
    ([strL "x"] : List Str) ≠ [] ∧
    (0 ≤ (detect_id_name_cols [strL "x"]).1 ∧
      (detect_id_name_cols [strL "x"]).1 < (([strL "x"] : List Str).length : Int) ∧
      0 ≤ (detect_id_name_cols [strL "x"]).2 ∧
      (detect_id_name_cols [strL "x"]).2 < (([strL "x"] : List Str).length : Int)) :=
  ⟨by decide, (claim8_resolver_total_amended.1 [strL "x"] (by decide)).1⟩

/-- C9: the identifier search is a strict priority chain: an exact match on
the lower-cased stripped header id is taken at its first position before any
keyword-substring match, which in turn is taken before the clamped positional
fallback min 3 (length - 1); for the headers id, name, id the identifier
index is 0, the first exact-match position. -/
theorem claim9_id_priority (cols : List Str) :
    ((strL "id") ∈ lowerCols cols →
      detectIdIdx cols = (idxOfStr (lowerCols cols) (strL "id") : Int)) ∧
    ((strL "id") ∉ lowerCols cols →
      detectIdIdx cols =
        (if (lowerCols cols).any idKwPred = true
         then ((lowerCols cols).findIdx idKwPred : Int)
         else min 3 ((cols.length : Int) - 1))) ∧
    (detect_id_name_cols [strL "id", strL "name", strL "id"]).1 = 0 := by
  refine ⟨?_, ?_, by decide⟩
  · intro hmem
    have hfe : findExact (lowerCols cols) ID_EXACT =
        some (idxOfStr (lowerCols cols) (strL "id")) := by
      show (if (strL "id") ∈ lowerCols cols
        then some (idxOfStr (lowerCols cols) (strL "id"))
        else findExact (lowerCols cols) []) = _
      rw [if_pos hmem]
    exact detectIdIdx_exact hfe
  · intro hmem
    have hfe : findExact (lowerCols cols) ID_EXACT = none := by
      show (if (strL "id") ∈ lowerCols cols
        then some (idxOfStr (lowerCols cols) (strL "id"))
        else findExact (lowerCols cols) []) = _
      rw [if_neg hmem]
      rfl
    exact detectIdIdx_noexact hfe

theorem claim9_id_priority_witness :
    (strL "id") ∈ lowerCols [strL "id", strL "name", strL "id"] ∧
    detectIdIdx [strL "id", strL "name", strL "id"] =
      (idxOfStr (lowerCols [strL "id", strL "name", strL "id"]) (strL "id") : Int) :=
  ⟨by decide, (claim9_id_priority [strL "id", strL "name", strL "id"]).1 (by decide)⟩

/-- C10 counterexample: the three Gate copies are not pairwise equal: on the
input xy with a converter returning the vowel-sign-free string Z, the
conv_driver copy keeps the converter output while the reporter Gate discards
it; on the alphabet-free input 12 with a converter returning valid Bengali,
the main Gate converts while the reporter Gate does not even consult the
converter. -/
theorem claim10_three_gates_cx :
    driver_convert_bijoy_in_value convZ (CellValue.vstr (strL "xy")) ≠
      convert_bijoy_value convZ (CellValue.vstr (strL "xy")) ∧
    main_convert_bijoy_in_value convBa (CellValue.vstr (strL "12")) ≠
      convert_bijoy_value convBa (CellValue.vstr (strL "12")) ∧
    driver_convert_bijoy_in_value convZ (CellValue.vstr (strL "xy")) =
      CellValue.vstr (strL "Z") ∧
    convert_bijoy_value convZ (CellValue.vstr (strL "xy")) = CellValue.vstr (strL "xy") ∧
    main_convert_bijoy_in_value convBa (CellValue.vstr (strL "12")) = CellValue.vstr baStr ∧
    convert_bijoy_value convBa (CellValue.vstr (strL "12")) = CellValue.vstr (strL "12") := by
  decide

/-- C10 amended: the reporter Gate and the main Gate agree on every string
that equals its own strip and contains an alphabetic character, given the
same deterministic converter, and all three Gate copies pass every non-string
value through unchanged; the conv_driver copy applies no accept or discard
decision, so it can disagree on converter outputs the other two reject. -/
theorem claim10_three_gates_amended (conv : Converter) :
    (∀ s : Str, strip s = s → s.any pyIsAlpha = true →
      convert_bijoy_value conv (CellValue.vstr s) =
        main_convert_bijoy_in_value conv (CellValue.vstr s)) ∧
    (∀ n : Int,
      convert_bijoy_value conv (CellValue.vother n) = CellValue.vother n ∧
      main_convert_bijoy_in_value conv (CellValue.vother n) = CellValue.vother n ∧
      driver_convert_bijoy_in_value conv (CellValue.vother n) = CellValue.vother n) ∧
    (convert_bijoy_value conv CellValue.vnan = CellValue.vnan ∧
      main_convert_bijoy_in_value conv CellValue.vnan = CellValue.vnan ∧
      driver_convert_bijoy_in_value conv CellValue.vnan = CellValue.vnan) :=
  ⟨fun s h1 h2 => reporter_eq_main_of_stripped conv s h1 h2,
   fun _ => ⟨rfl, rfl, rfl⟩, rfl, rfl, rfl⟩

theorem claim10_three_gates_amended_witness :
    strip (strL "ab") = strL "ab" ∧ (strL "ab").any pyIsAlpha = true ∧
    convert_bijoy_value convNone (CellValue.vstr (strL "ab")) =
      main_convert_bijoy_in_value convNone (CellValue.vstr (strL "ab")) :=
  ⟨by decide, by decide,
   (claim10_three_gates_amended convNone).1 (strL "ab") (by decide) (by decide)⟩
